import Mathlib

/-!
Verification of the text-analysis caching subsystem of the BookManager
repository (`book_manager/analysis/text_analysis.py`).

The embedding is shallow: the `LRUCache` class (an `OrderedDict` subclass)
is modelled as an association list whose head is the least-recently-used
entry (`OrderedDict.popitem(last=False)` removes the head,
`move_to_end(key)` moves an entry to the back), and `TextAnalyzer` methods
are modelled as pure functions with the cache threaded explicitly.
Text is modelled as `List Char` (one `Char` per byte/character; the ASCII
fragment of Python's str semantics).
-/

set_option maxHeartbeats 1600000

/-- Dictionary lookup on an association list: the value of the first pair
whose key equals `k` (Python `self[key]` / `key in self`). -/
def lookupKey {K V : Type} [DecidableEq K] (k : K) : List (K × V) → Option V
  | [] => none
  | p :: ps => if p.1 = k then some p.2 else lookupKey k ps

/-- Remove every pair with key `k` (on key-nodup lists: at most one). -/
def eraseKey {K V : Type} [DecidableEq K] (k : K) (l : List (K × V)) : List (K × V) :=
  l.filter (fun p => decide (p.1 ≠ k))

/-- `class LRUCache(OrderedDict)` (text_analysis.py, lines 30-57): a
fixed-capacity ordered mapping.  `entries` is ordered from least recently
used (head) to most recently used (last). -/
structure LRUCache (K V : Type) where
  capacity : Nat
  entries : List (K × V)
deriving DecidableEq

/-- A fresh cache, as built by `LRUCache(capacity)` (line 35-38). -/
def LRUCache.empty (K V : Type) (capacity : Nat) : LRUCache K V :=
  ⟨capacity, []⟩

/-- `LRUCache.get` (lines 40-45): `None` when absent; on a hit the entry is
moved to the most-recently-used end (`move_to_end`) and its value returned.
The mutated cache is returned alongside the result. -/
def LRUCache.get {K V : Type} [DecidableEq K] (c : LRUCache K V) (k : K) :
    Option V × LRUCache K V :=
  match lookupKey k c.entries with
  | none => (none, c)
  | some v => (some v, ⟨c.capacity, eraseKey k c.entries ++ [(k, v)]⟩)

/-- `LRUCache.put` (lines 47-53): an existing key is moved to the end
(`move_to_end`) and overwritten, a new key is appended at the end; then, if
the size exceeds the capacity, `popitem(last=False)` removes the single
least-recently-used entry (the head). -/
def LRUCache.put {K V : Type} [DecidableEq K] (c : LRUCache K V) (k : K) (v : V) :
    LRUCache K V :=
  if c.capacity < (eraseKey k c.entries ++ [(k, v)]).length
  then ⟨c.capacity, (eraseKey k c.entries ++ [(k, v)]).drop 1⟩
  else ⟨c.capacity, eraseKey k c.entries ++ [(k, v)]⟩

/-- `LRUCache.clear` (lines 55-57): remove all entries, keep the capacity. -/
def LRUCache.clear {K V : Type} (c : LRUCache K V) : LRUCache K V :=
  ⟨c.capacity, []⟩

/-- The keys of a cache, least recently used first. -/
def LRUCache.keys {K V : Type} (c : LRUCache K V) : List K :=
  c.entries.map Prod.fst

/-- One cache operation, for stating properties over operation sequences. -/
inductive CacheOp (K V : Type) where
  | get (k : K)
  | put (k : K) (v : V)
  | clear

/-- Apply one operation to a cache (the result of `get` is discarded,
only its recency side effect is kept). -/
def applyOp {K V : Type} [DecidableEq K] (c : LRUCache K V) : CacheOp K V → LRUCache K V
  | .get k => (c.get k).2
  | .put k v => c.put k v
  | .clear => c.clear

/-- Run a sequence of cache operations left to right. -/
def runOps {K V : Type} [DecidableEq K] (c : LRUCache K V) (ops : List (CacheOp K V)) :
    LRUCache K V :=
  ops.foldl applyOp c

/-! ### Association-list lemmas -/

theorem lookupKey_append {K V : Type} [DecidableEq K] (k : K) (l l' : List (K × V)) :
    lookupKey k (l ++ l') =
      match lookupKey k l with
      | some v => some v
      | none => lookupKey k l' := by
  induction l with
  | nil => simp [lookupKey]
  | cons p ps ih =>
      by_cases h : p.1 = k <;> simp [lookupKey, h, ih]

theorem eraseKey_cons {K V : Type} [DecidableEq K] (k : K) (p : K × V) (ps : List (K × V)) :
    eraseKey k (p :: ps) = if p.1 = k then eraseKey k ps else p :: eraseKey k ps := by
  by_cases h : p.1 = k <;> simp [eraseKey, List.filter_cons, h]

theorem lookupKey_eraseKey_self {K V : Type} [DecidableEq K] (k : K) (l : List (K × V)) :
    lookupKey k (eraseKey k l) = none := by
  induction l with
  | nil => simp [eraseKey, lookupKey]
  | cons p ps ih =>
      by_cases h : p.1 = k <;> simp [eraseKey_cons, h, lookupKey, ih]

theorem lookupKey_eraseKey_ne {K V : Type} [DecidableEq K] {k k' : K} (h : k' ≠ k)
    (l : List (K × V)) : lookupKey k' (eraseKey k l) = lookupKey k' l := by
  induction l with
  | nil => rfl
  | cons p ps ih =>
      by_cases hp : p.1 = k
      · have hne : ¬ p.1 = k' := fun hk => h (hk ▸ hp)
        simp [eraseKey_cons, hp, lookupKey, hne, ih, Ne.symm h]
      · by_cases hk' : p.1 = k' <;> simp [eraseKey_cons, hp, lookupKey, hk', ih, h]

theorem eraseKey_of_lookup_none {K V : Type} [DecidableEq K] {k : K} {l : List (K × V)}
    (h : lookupKey k l = none) : eraseKey k l = l := by
  induction l with
  | nil => rfl
  | cons p ps ih =>
      by_cases hp : p.1 = k
      · simp [lookupKey, hp] at h
      · simp [lookupKey, hp] at h
        simp [eraseKey_cons, hp, ih h]

theorem lookupKey_isSome_iff_mem {K V : Type} [DecidableEq K] (k : K) (l : List (K × V)) :
    (lookupKey k l).isSome ↔ k ∈ l.map Prod.fst := by
  induction l with
  | nil => simp [lookupKey]
  | cons p ps ih =>
      by_cases h : p.1 = k
      · simp [lookupKey, h]
      · simp [lookupKey, h, ih, Ne.symm h]

theorem lookupKey_eq_none_iff_not_mem {K V : Type} [DecidableEq K] (k : K) (l : List (K × V)) :
    lookupKey k l = none ↔ k ∉ l.map Prod.fst := by
  rw [← lookupKey_isSome_iff_mem]
  cases lookupKey k l <;> simp

theorem keys_eraseKey {K V : Type} [DecidableEq K] (k : K) (l : List (K × V)) :
    (eraseKey k l).map Prod.fst = (l.map Prod.fst).filter (fun x => decide (x ≠ k)) := by
  induction l with
  | nil => rfl
  | cons p ps ih =>
      by_cases h : p.1 = k <;> simp [eraseKey_cons, h, List.filter_cons, ih]

theorem length_eraseKey_add_one {K V : Type} [DecidableEq K] {k : K} {l : List (K × V)}
    (hnd : (l.map Prod.fst).Nodup) (hmem : (lookupKey k l).isSome) :
    (eraseKey k l).length + 1 = l.length := by
  induction l with
  | nil => simp [lookupKey] at hmem
  | cons p ps ih =>
      simp only [List.map_cons, List.nodup_cons] at hnd
      by_cases h : p.1 = k
      · have : lookupKey k ps = none := by
          rw [lookupKey_eq_none_iff_not_mem]; exact h ▸ hnd.1
        simp [eraseKey_cons, h, eraseKey_of_lookup_none this]
      · simp only [lookupKey, h, if_false] at hmem
        simp [eraseKey_cons, h, ih hnd.2 hmem]

/-- Well-formedness of a cache: within capacity, with no duplicate keys.
Holds for `LRUCache.empty` and is preserved by every operation. -/
def LRUCache.wf {K V : Type} (c : LRUCache K V) : Prop :=
  c.entries.length ≤ c.capacity ∧ c.keys.Nodup

theorem wf_empty {K V : Type} (cap : Nat) : (LRUCache.empty K V cap).wf := by
  constructor <;> simp [LRUCache.empty, LRUCache.keys]

theorem nodup_keys_erase_append {K V : Type} [DecidableEq K] (k : K) (v : V)
    (l : List (K × V)) (hnd : (l.map Prod.fst).Nodup) :
    ((eraseKey k l ++ [(k, v)]).map Prod.fst).Nodup := by
  simp only [List.map_append, keys_eraseKey, List.map_cons, List.map_nil]
  rw [List.nodup_append]
  refine ⟨hnd.filter _, List.nodup_singleton k, ?_⟩
  intro a ha hb
  simp only [List.mem_filter, decide_eq_true_eq] at ha
  simp only [List.mem_singleton] at hb
  exact ha.2 hb

theorem wf_get {K V : Type} [DecidableEq K] (c : LRUCache K V) (k : K) (h : c.wf) :
    (c.get k).2.wf := by
  obtain ⟨h1, h2⟩ := h
  unfold LRUCache.get
  cases hl : lookupKey k c.entries with
  | none => exact ⟨h1, h2⟩
  | some v =>
      have hlen := length_eraseKey_add_one (k := k) h2 (by simp [hl])
      unfold LRUCache.wf
      refine ⟨?_, ?_⟩
      · simp only [List.length_append, List.length_cons, List.length_nil]
        omega
      · simp only [LRUCache.keys]
        exact nodup_keys_erase_append k v c.entries h2

theorem wf_put {K V : Type} [DecidableEq K] (c : LRUCache K V) (k : K) (v : V) (h : c.wf) :
    (c.put k v).wf := by
  obtain ⟨h1, h2⟩ := h
  have hnd := nodup_keys_erase_append k v c.entries h2
  have hle : (eraseKey k c.entries).length ≤ c.entries.length :=
    List.length_filter_le _ _
  unfold LRUCache.put LRUCache.wf
  by_cases hcap : c.capacity < (eraseKey k c.entries ++ [(k, v)]).length
  · simp only [hcap, if_true]
    refine ⟨?_, ?_⟩
    · simp only [List.length_drop, List.length_append, List.length_cons, List.length_nil]
      simp only [List.length_append, List.length_cons, List.length_nil] at hcap
      omega
    · simp only [LRUCache.keys]
      exact List.Nodup.sublist ((List.drop_sublist _ _).map _) hnd
  · simp only [hcap, if_false]
    refine ⟨?_, ?_⟩
    · simp only [List.length_append, List.length_cons, List.length_nil] at hcap ⊢
      omega
    · simpa only [LRUCache.keys] using hnd

theorem wf_applyOp {K V : Type} [DecidableEq K] (c : LRUCache K V) (op : CacheOp K V)
    (h : c.wf) : (applyOp c op).wf := by
  cases op with
  | get k => exact wf_get c k h
  | put k v => exact wf_put c k v h
  | clear => exact ⟨by simp [applyOp, LRUCache.clear], by simp [applyOp, LRUCache.clear, LRUCache.keys]⟩

theorem wf_runOps {K V : Type} [DecidableEq K] (c : LRUCache K V)
    (ops : List (CacheOp K V)) (h : c.wf) : (runOps c ops).wf := by
  induction ops generalizing c with
  | nil => exact h
  | cons op ops ih => exact ih _ (wf_applyOp c op h)

theorem capacity_applyOp {K V : Type} [DecidableEq K] (c : LRUCache K V) (op : CacheOp K V) :
    (applyOp c op).capacity = c.capacity := by
  cases op with
  | get k =>
      simp only [applyOp, LRUCache.get]
      cases lookupKey k c.entries <;> rfl
  | put k v =>
      simp only [applyOp, LRUCache.put]
      split <;> rfl
  | clear => rfl

/-! ### Put characterization lemmas -/

theorem put_entries_of_present {K V : Type} [DecidableEq K] (c : LRUCache K V) (k : K) (v : V)
    (hnd : c.keys.Nodup) (hcap : c.entries.length ≤ c.capacity)
    (hmem : (lookupKey k c.entries).isSome) :
    (c.put k v).entries = eraseKey k c.entries ++ [(k, v)] := by
  have hlen := length_eraseKey_add_one (k := k) hnd hmem
  have hno : ¬ c.capacity < (eraseKey k c.entries ++ [(k, v)]).length := by
    simp only [List.length_append, List.length_cons, List.length_nil]
    omega
  unfold LRUCache.put
  rw [if_neg hno]

theorem put_entries_of_absent_small {K V : Type} [DecidableEq K] (c : LRUCache K V)
    (k : K) (v : V) (habs : lookupKey k c.entries = none)
    (hlt : c.entries.length < c.capacity) :
    (c.put k v).entries = c.entries ++ [(k, v)] := by
  unfold LRUCache.put
  rw [eraseKey_of_lookup_none habs]
  have hno : ¬ c.capacity < (c.entries ++ [(k, v)]).length := by
    simp only [List.length_append, List.length_cons, List.length_nil]
    omega
  rw [if_neg hno]

theorem put_entries_of_absent_full {K V : Type} [DecidableEq K] (c : LRUCache K V)
    (k : K) (v : V) (habs : lookupKey k c.entries = none)
    (hfull : c.entries.length = c.capacity) (hpos : 1 ≤ c.capacity) :
    (c.put k v).entries = c.entries.drop 1 ++ [(k, v)] := by
  unfold LRUCache.put
  rw [eraseKey_of_lookup_none habs]
  have hcond : c.capacity < (c.entries ++ [(k, v)]).length := by
    simp only [List.length_append, List.length_cons, List.length_nil]
    omega
  rw [if_pos hcond]
  show (c.entries ++ [(k, v)]).drop 1 = c.entries.drop 1 ++ [(k, v)]
  exact List.drop_append_of_le_length (by omega)

theorem capacity_runOps {K V : Type} [DecidableEq K] (c : LRUCache K V)
    (ops : List (CacheOp K V)) : (runOps c ops).capacity = c.capacity := by
  induction ops generalizing c with
  | nil => rfl
  | cons op ops ih =>
      have : runOps c (op :: ops) = runOps (applyOp c op) ops := rfl
      rw [this, ih (applyOp c op), capacity_applyOp]

/-- C3: for every cache of capacity ≥ 1 and every sequence of `get`/`put`/
`clear` operations, `0 ≤ size ≤ capacity` holds after every prefix of the
sequence; and a `put` evicts exactly the one least-recently-used entry
(the head of the recency order) exactly when it inserts a new key into a
full cache — an update of a present key and an insert below capacity
remove no key. -/
theorem lru_capacity_invariant_evict_C3 {V : Type} (cap : Nat) (hcap : 1 ≤ cap) :
    (∀ ops pre : List (CacheOp String V), pre.IsPrefix ops →
       0 ≤ (runOps (LRUCache.empty String V cap) pre).entries.length
       ∧ (runOps (LRUCache.empty String V cap) pre).entries.length ≤ cap)
    ∧ (∀ (c : LRUCache String V) (k : String) (v : V), c.capacity = cap →
        c.keys.Nodup → c.entries.length ≤ cap →
        ((lookupKey k c.entries).isSome →
           (c.put k v).keys = c.keys.filter (fun x => decide (x ≠ k)) ++ [k]
           ∧ (c.put k v).entries.length = c.entries.length)
        ∧ (lookupKey k c.entries = none → c.entries.length < cap →
           (c.put k v).keys = c.keys ++ [k])
        ∧ (lookupKey k c.entries = none → c.entries.length = cap →
           (c.put k v).keys = c.keys.drop 1 ++ [k])) := by
  constructor
  · intro ops pre _
    have hwf := wf_runOps (LRUCache.empty String V cap) pre (wf_empty cap)
    have hcapeq : (runOps (LRUCache.empty String V cap) pre).capacity = cap :=
      capacity_runOps _ pre
    exact ⟨Nat.zero_le _, le_of_le_of_eq hwf.1 hcapeq⟩
  · intro c k v hceq hnd hlen
    refine ⟨?_, ?_, ?_⟩
    · intro hmem
      have he := put_entries_of_present c k v hnd (hceq ▸ hlen) hmem
      constructor
      · simp only [LRUCache.keys, he, List.map_append, keys_eraseKey, List.map_cons,
          List.map_nil]
      · have hlen1 := length_eraseKey_add_one (k := k) hnd hmem
        simp only [he, List.length_append, List.length_cons, List.length_nil]
        omega
    · intro habs hlt
      have he := put_entries_of_absent_small c k v habs (hceq ▸ hlt)
      simp only [LRUCache.keys, he, List.map_append, List.map_cons, List.map_nil]
    · intro habs hfull
      have he := put_entries_of_absent_full c k v habs (hceq ▸ hfull) (hceq ▸ hcap)
      simp only [LRUCache.keys, he, List.map_append, List.map_cons, List.map_nil,
        List.map_drop]

theorem lru_capacity_invariant_evict_C3_witness :
    0 ≤ (runOps (LRUCache.empty String Nat 2)
          [CacheOp.put "a" 1, CacheOp.put "b" 2, CacheOp.put "c" 3]).entries.length
    ∧ (runOps (LRUCache.empty String Nat 2)
          [CacheOp.put "a" 1, CacheOp.put "b" 2, CacheOp.put "c" 3]).entries.length ≤ 2 :=
  (lru_capacity_invariant_evict_C3 (V := Nat) 2 (by decide)).1
    [CacheOp.put "a" 1, CacheOp.put "b" 2, CacheOp.put "c" 3]
    [CacheOp.put "a" 1, CacheOp.put "b" 2, CacheOp.put "c" 3]
    List.prefix_rfl

/-- C2: with capacity 2 and distinct keys, after `put A; put B; put C` the
key `A` is absent and `B`, `C` present; and when `get B` intervenes before
`put D`, the entry evicted by `put D` is `C` (while `B` and `D` remain). -/
theorem lru_eviction_order_C2 {V : Type} (A B C D : String) (vA vB vC vD : V)
    (hAB : A ≠ B) (hAC : A ≠ C) (_hAD : A ≠ D)
    (hBC : B ≠ C) (hBD : B ≠ D) (hCD : C ≠ D) :
    lookupKey A ((((LRUCache.empty String V 2).put A vA).put B vB).put C vC).entries = none
    ∧ lookupKey B ((((LRUCache.empty String V 2).put A vA).put B vB).put C vC).entries
        = some vB
    ∧ lookupKey C ((((LRUCache.empty String V 2).put A vA).put B vB).put C vC).entries
        = some vC
    ∧ lookupKey C ((((((LRUCache.empty String V 2).put A vA).put B vB).put C vC).get
        B).2.put D vD).entries = none
    ∧ lookupKey B ((((((LRUCache.empty String V 2).put A vA).put B vB).put C vC).get
        B).2.put D vD).entries = some vB
    ∧ lookupKey D ((((((LRUCache.empty String V 2).put A vA).put B vB).put C vC).get
        B).2.put D vD).entries = some vD := by
  have s1 : (LRUCache.empty String V 2).put A vA = ⟨2, [(A, vA)]⟩ := by
    simp [LRUCache.put, LRUCache.empty, eraseKey]
  have s2 : (LRUCache.mk 2 [(A, vA)] : LRUCache String V).put B vB
      = ⟨2, [(A, vA), (B, vB)]⟩ := by
    simp [LRUCache.put, eraseKey, hAB]
  have s3 : (LRUCache.mk 2 [(A, vA), (B, vB)] : LRUCache String V).put C vC
      = ⟨2, [(B, vB), (C, vC)]⟩ := by
    simp [LRUCache.put, eraseKey, hAC, hBC]
  have s4 : (LRUCache.mk 2 [(B, vB), (C, vC)] : LRUCache String V).get B
      = (some vB, ⟨2, [(C, vC), (B, vB)]⟩) := by
    simp [LRUCache.get, lookupKey, eraseKey, Ne.symm hBC]
  have s5 : (LRUCache.mk 2 [(C, vC), (B, vB)] : LRUCache String V).put D vD
      = ⟨2, [(B, vB), (D, vD)]⟩ := by
    simp [LRUCache.put, eraseKey, hBD, hCD]
  rw [s1, s2, s3, s4]
  simp only []
  rw [s5]
  refine ⟨?_, ?_, ?_, ?_, ?_, ?_⟩ <;>
    simp [lookupKey, hAB, hAC, hBC, hBD, hCD, Ne.symm hAB, Ne.symm hAC,
      Ne.symm hBC, Ne.symm hBD, Ne.symm hCD]

theorem lru_eviction_order_C2_witness :
    lookupKey "A" ((((LRUCache.empty String Nat 2).put "A" 1).put "B" 2).put "C" 3).entries
        = none
    ∧ lookupKey "B" ((((LRUCache.empty String Nat 2).put "A" 1).put "B" 2).put "C"
        3).entries = some 2
    ∧ lookupKey "C" ((((LRUCache.empty String Nat 2).put "A" 1).put "B" 2).put "C"
        3).entries = some 3
    ∧ lookupKey "C" ((((((LRUCache.empty String Nat 2).put "A" 1).put "B" 2).put "C"
        3).get "B").2.put "D" 4).entries = none
    ∧ lookupKey "B" ((((((LRUCache.empty String Nat 2).put "A" 1).put "B" 2).put "C"
        3).get "B").2.put "D" 4).entries = some 2
    ∧ lookupKey "D" ((((((LRUCache.empty String Nat 2).put "A" 1).put "B" 2).put "C"
        3).get "B").2.put "D" 4).entries = some 4 :=
  lru_eviction_order_C2 "A" "B" "C" "D" 1 2 3 4 (by decide) (by decide) (by decide)
    (by decide) (by decide) (by decide)

/-! ### Text analysis (`TextAnalyzer`, text_analysis.py lines 60-186)

Python's `\w` is modelled on its ASCII fragment (letters, digits,
underscore); `str.lower` as `Char.toLower`; in-line whitespace (`\s`
inside a line, and `str.strip`) as space and tab. -/

/-- A word character of the regex `\w` (ASCII fragment). -/
def isWordChar (c : Char) : Bool := c.isAlphanum || c = '_'

/-- Accumulating scanner splitting a string into the maximal runs of word
characters — the matches of `re.findall(r'\b\w+\b', text)`. -/
def tokenizeGo (cur : List Char) : List Char → List (List Char)
  | [] => if cur.isEmpty then [] else [cur.reverse]
  | c :: cs =>
      if isWordChar c then tokenizeGo (c :: cur) cs
      else if cur.isEmpty then tokenizeGo [] cs
      else cur.reverse :: tokenizeGo [] cs

/-- The list of word tokens of a text, in order. -/
def tokenize (cs : List Char) : List (List Char) := tokenizeGo [] cs

/-- `TextAnalyzer.count_words` (lines 93-96). -/
def count_words (cs : List Char) : Nat := (tokenize cs).length

/-- `text.lower()`. -/
def lowerChars (cs : List Char) : List Char := cs.map Char.toLower

/-- One step of `collections.Counter` construction: increment the count of
`w` if present (keys keep their first-insertion position), else append
`(w, 1)` at the end. -/
def counterAdd {K : Type} [DecidableEq K] (acc : List (K × Nat)) (w : K) :
    List (K × Nat) :=
  if (lookupKey w acc).isSome then
    acc.map (fun p => if p.1 = w then (p.1, p.2 + 1) else p)
  else acc ++ [(w, 1)]

/-- `TextAnalyzer.get_word_frequency` (lines 98-112): tokens of the
lowercased text, keeping those not in the stopword set and of length ≥ 3,
counted into a `Counter` (an insertion-ordered mapping).  The
`@lru_cache` decorator on the source method memoizes but does not change
the value. -/
def get_word_frequency (text : List Char) (stopwords : List (List Char)) :
    List (List Char × Nat) :=
  ((tokenize (lowerChars text)).filter
      (fun w => !decide (w ∈ stopwords) && decide (3 ≤ w.length))).foldl counterAdd []

/-- Comparison used by `Counter.most_common`: `a` before `b` when the
count of `a` is at least that of `b` (descending by count). -/
def cntGe (a b : List Char × Nat) : Bool := decide (b.2 ≤ a.2)

/-- `Counter.most_common(n)`: `heapq.nlargest(n, items, key=count)`, which
is documented and implemented to agree with a stable descending sort of
the items truncated to the first `n`. -/
def most_common (n : Nat) (freq : List (List Char × Nat)) :
    List (List Char × Nat) :=
  (freq.mergeSort cntGe).take n

/-- In-line whitespace (the characters `str.strip` removes and `\s`
matches inside a line, in the ASCII fragment without line breaks). -/
def isPySpace (c : Char) : Bool := c = ' ' || c = '\t'

/-- A character of the regex class `[:\-\s]` inside a line. -/
def isSepChar (c : Char) : Bool := c = ':' || c = '-' || isPySpace c

/-- `str.strip()`. -/
def pyStrip (cs : List Char) : List Char :=
  ((cs.dropWhile isPySpace).reverse.dropWhile isPySpace).reverse

/-- Accumulating scanner for `str.splitlines()` (modelled on `'\n'`
boundaries): a trailing line terminator produces no empty final line. -/
def splitAux (cur : List Char) : List Char → List (List Char)
  | [] => if cur.isEmpty then [] else [cur.reverse]
  | c :: cs => if c = '\n' then cur.reverse :: splitAux [] cs else splitAux (c :: cur) cs

/-- `text.splitlines()`. -/
def splitlines (cs : List Char) : List (List Char) := splitAux [] cs

/-- Does `TODO` match case-insensitively at position `i` of the line? -/
def todoAt (cs : List Char) (i : Nat) : Bool :=
  decide ((((cs.drop i).take 4).map Char.toLower) = ['t', 'o', 'd', 'o'])

/-- The start position `re.search(r"TODO[:\-\s]*(.+)", line, IGNORECASE)`
matches at: the least `i` where `TODO` matches and at least one character
follows it on the line (`[:\-\s]*` can match zero characters and `.+`
needs one; a line holds no line terminator, so `.` matches every
remaining character). -/
def findTodoMatch (cs : List Char) : Option Nat :=
  (List.range cs.length).find? (fun i => todoAt cs i && decide (i + 4 < cs.length))

/-- Backtracking of the greedy `[:\-\s]*` before the mandatory `(.+)`:
starting from `j` separator characters consumed, give up one at a time
until at least one character remains for `.+`, which then captures the
whole remainder of the line. -/
def tryCapture (rest : List Char) : Nat → Option (List Char)
  | 0 => if 1 ≤ rest.length then some rest else none
  | j + 1 =>
      if 1 ≤ rest.length - (j + 1) then some (rest.drop (j + 1))
      else tryCapture rest j

/-- The contribution of one line to `extract_todos`: the captured group,
stripped; dropped when it strips to the empty string. -/
def todoTaskOfLine (line : List Char) : Option (List Char) :=
  match findTodoMatch line with
  | none => none
  | some i =>
      match tryCapture (line.drop (i + 4))
          (((line.drop (i + 4)).takeWhile isSepChar).length) with
      | none => none
      | some cap =>
          if (pyStrip cap).isEmpty then none else some (pyStrip cap)

/-- `TextAnalyzer.extract_todos` (lines 114-123). -/
def extract_todos (cs : List Char) : List (List Char) :=
  (splitlines cs).filterMap todoTaskOfLine

/-- The analysis results dictionary built at lines 171-176. -/
structure AnalysisResult where
  word_count : Nat
  top_words : List (List Char)
  todos : List (List Char)
  frequency : List (List Char × Nat)
deriving DecidableEq

/-- The configuration options `analyze_scene` reads (with their loader
defaults): `cache_size`, `max_file_size`, `stopwords`, `top_words_count`. -/
structure Config where
  cache_size : Nat
  max_file_size : Nat
  stopwords : List (List Char)
  top_words_count : Nat

/-- The pure analysis of a text (lines 163-176): word count, top words by
`most_common`, TODO items, and the frequency mapping. -/
def analyzeText (cfg : Config) (text : List Char) : AnalysisResult :=
  { word_count := count_words text
    top_words :=
      (most_common cfg.top_words_count (get_word_frequency text cfg.stopwords)).map
        Prod.fst
    todos := extract_todos text
    frequency := get_word_frequency text cfg.stopwords }

/-! ### File model and `analyze_scene`

A file is modelled by its observable behavior during one (unmodified)
analysis call: existence, byte content (one `Char` per byte, so
`st_size = data.length`), whether opening/reading it for hashing raises
`IOError`, whether `read_text` raises `IOError`, and whether the bytes
decode under the configured encoding. -/

structure FileInfo where
  present : Bool
  data : List Char
  hashIoFail : Bool
  readIoFail : Bool
  decodable : Bool

/-- Outcome of `TextAnalyzer.get_file_hash` (lines 70-91).  `ioError` is
the `IOError` re-raised by its handler; `valueError` is the `ValueError`
CPython's `mmap.mmap(fileno, 0)` raises on an empty file ("cannot mmap an
empty file"), which the handler `except (IOError, mmap.error)` does NOT
catch, so it escapes `get_file_hash` unwrapped. -/
inductive HashOutcome where
  | ok (digest : String)
  | ioError
  | valueError
deriving DecidableEq

/-- `TextAnalyzer.get_file_hash`: open + mmap + SHA-256.  The SHA-256
digest itself is modelled by an arbitrary content-determined function
`hashFn` (the spec assumes collision-free content addressing). -/
def get_file_hash (hashFn : List Char → String) (f : FileInfo) : HashOutcome :=
  if f.hashIoFail then .ioError
  else if f.data.length = 0 then .valueError
  else .ok (hashFn f.data)

/-- `file_path.read_text(encoding)`: the decoded text, or `none` when the
read raises `IOError` or the bytes do not decode (`UnicodeDecodeError`). -/
def read_text (f : FileInfo) : Option (List Char) :=
  if f.readIoFail || !f.decodable then none else some f.data

/-- The exceptions `analyze_scene` can let escape: the size-limit
`ValueError` of line 143, and the empty-file mmap `ValueError` escaping
from the `use_cache` fingerprint of line 148 (only `IOError` is caught
there). -/
inductive AnalyzeError where
  | sizeLimit
  | emptyMmap
deriving DecidableEq

/-- Result of one `analyze_scene` call: the returned value (or escaped
exception), the cache left behind, and whether the call attempted to read
the file's content (line 157). -/
structure AnalyzeOutcome where
  result : Except AnalyzeError (Option AnalysisResult)
  cache : LRUCache String AnalysisResult
  contentRead : Bool

/-- Lines 154-186 of `analyze_scene`: read the text (read/decode failures
give `None`), analyze it, and, when `use_cache` is set, store the result
under a freshly recomputed fingerprint.  The store step runs inside the
`try ... except Exception` block, so a fingerprint failure there (IOError
or ValueError alike) is swallowed and turns the call's value into `None`,
with the cache unchanged. -/
def proceedRead (hashFn : List Char → String) (cfg : Config)
    (cache : LRUCache String AnalysisResult) (f : FileInfo) (use_cache : Bool) :
    AnalyzeOutcome :=
  match read_text f with
  | none => ⟨.ok none, cache, true⟩
  | some text =>
      if use_cache then
        match get_file_hash hashFn f with
        | .ok h => ⟨.ok (some (analyzeText cfg text)), cache.put h (analyzeText cfg text),
            true⟩
        | .ioError => ⟨.ok none, cache, true⟩
        | .valueError => ⟨.ok none, cache, true⟩
      else ⟨.ok (some (analyzeText cfg text)), cache, true⟩

/-- `TextAnalyzer.analyze_scene` (lines 125-186).  Steps: existence check
(`None` when missing), size check (raises the size-limit `ValueError` when
`st_size > max_file_size`), then, when `use_cache` is set, fingerprint and
cache lookup — a hit returns the cached value without touching the file's
content; a fingerprint `IOError` is caught and treated as a miss, while
the empty-file `ValueError` escapes; finally the read/analyze/store path
of `proceedRead`.  A `get` miss leaves the cache unchanged; a hit moves
the entry to most-recently-used. -/
def analyze_scene (hashFn : List Char → String) (cfg : Config)
    (cache : LRUCache String AnalysisResult) (f : FileInfo) (use_cache : Bool) :
    AnalyzeOutcome :=
  if !f.present then ⟨.ok none, cache, false⟩
  else if cfg.max_file_size < f.data.length then ⟨.error .sizeLimit, cache, false⟩
  else if use_cache then
    match get_file_hash hashFn f with
    | .valueError => ⟨.error .emptyMmap, cache, false⟩
    | .ioError => proceedRead hashFn cfg cache f use_cache
    | .ok h =>
        match cache.get h with
        | (some v, c2) => ⟨.ok (some v), c2, false⟩
        | (none, c2) => proceedRead hashFn cfg c2 f use_cache
  else proceedRead hashFn cfg cache f use_cache

/-! ### Analyzer lemmas and claims -/

theorem proceedRead_result_ok (hashFn : List Char → String) (cfg : Config)
    (cache : LRUCache String AnalysisResult) (f : FileInfo) (uc : Bool) :
    ∃ o, (proceedRead hashFn cfg cache f uc).result = Except.ok o := by
  unfold proceedRead
  cases read_text f with
  | none => exact ⟨none, rfl⟩
  | some text =>
      cases uc with
      | false => exact ⟨some (analyzeText cfg text), rfl⟩
      | true =>
          cases get_file_hash hashFn f with
          | ok h => exact ⟨some (analyzeText cfg text), rfl⟩
          | ioError => exact ⟨none, rfl⟩
          | valueError => exact ⟨none, rfl⟩

/-- C10: analyzing with `use_cache=false` leaves the bounded cache — its
entries and their recency order — entirely unchanged: the call performs no
cache lookup and no cache insertion. -/
theorem analyze_no_cache_frame_C10 (hashFn : List Char → String) (cfg : Config)
    (cache : LRUCache String AnalysisResult) (f : FileInfo) :
    (analyze_scene hashFn cfg cache f false).cache = cache := by
  unfold analyze_scene
  by_cases hp : (!f.present) = true
  · rw [if_pos hp]
  · rw [if_neg hp]
    by_cases hs : cfg.max_file_size < f.data.length
    · rw [if_pos hs]
    · rw [if_neg hs]
      show (proceedRead hashFn cfg cache f false).cache = cache
      unfold proceedRead
      cases read_text f with
      | none => rfl
      | some text => rfl

/-- C6: for a path that names no existing file, `analyze_scene` returns
the absence signal (`None`) without raising, for either value of
`use_cache`. -/
theorem analyze_missing_file_C6 (hashFn : List Char → String) (cfg : Config)
    (cache : LRUCache String AnalysisResult) (f : FileInfo) (uc : Bool)
    (hp : f.present = false) :
    (analyze_scene hashFn cfg cache f uc).result = Except.ok none := by
  unfold analyze_scene
  rw [hp]
  rfl

theorem analyze_missing_file_C6_witness :
    (analyze_scene (fun _ => "d") ⟨1000, 100, [], 5⟩
        (LRUCache.empty String AnalysisResult 1000)
        ⟨false, [], false, false, true⟩ true).result = Except.ok none :=
  analyze_missing_file_C6 (fun _ => "d") ⟨1000, 100, [], 5⟩
    (LRUCache.empty String AnalysisResult 1000) ⟨false, [], false, false, true⟩ true rfl

/-- C7: the size check runs on every call, for both values of `use_cache`:
a file of exactly `max_file_size` bytes never triggers the size-limit
error, and a file of `max_file_size + 1` bytes always raises it. -/
theorem analyze_size_boundary_C7 (hashFn : List Char → String) (cfg : Config)
    (cache : LRUCache String AnalysisResult) (f : FileInfo) (uc : Bool)
    (hp : f.present = true) :
    (f.data.length = cfg.max_file_size →
       (analyze_scene hashFn cfg cache f uc).result ≠ Except.error AnalyzeError.sizeLimit)
    ∧ (f.data.length = cfg.max_file_size + 1 →
       (analyze_scene hashFn cfg cache f uc).result = Except.error AnalyzeError.sizeLimit) := by
  constructor
  · intro heq
    unfold analyze_scene
    rw [hp]
    simp only [Bool.not_true]
    rw [if_neg (by simp)]
    rw [if_neg (by omega)]
    by_cases huc : uc = true
    · rw [if_pos huc]
      cases get_file_hash hashFn f with
      | valueError => simp
      | ioError =>
          obtain ⟨o, ho⟩ := proceedRead_result_ok hashFn cfg cache f uc
          simp [ho]
      | ok h =>
          cases hg : cache.get h with
          | mk ov c2 =>
              cases ov with
              | none =>
                  obtain ⟨o, ho⟩ := proceedRead_result_ok hashFn cfg c2 f uc
                  simp [hg, ho]
              | some v =>
                  simp [hg]
    · rw [if_neg huc]
      obtain ⟨o, ho⟩ := proceedRead_result_ok hashFn cfg cache f uc
      simp [ho]
  · intro heq
    unfold analyze_scene
    rw [hp]
    simp only [Bool.not_true]
    rw [if_neg (by simp)]
    rw [if_pos (by omega)]

theorem analyze_size_boundary_C7_witness :
    (⟨true, "hello".toList, false, false, true⟩ : FileInfo).present = true
    ∧ (analyze_scene (fun _ => "d") ⟨1000, 5, [], 5⟩
        (LRUCache.empty String AnalysisResult 1000)
        ⟨true, "hello".toList, false, false, true⟩ true).result
        ≠ Except.error AnalyzeError.sizeLimit
    ∧ (analyze_scene (fun _ => "d") ⟨1000, 5, [], 5⟩
        (LRUCache.empty String AnalysisResult 1000)
        ⟨true, "hello!".toList, false, false, true⟩ true).result
        = Except.error AnalyzeError.sizeLimit :=
  ⟨rfl,
   (analyze_size_boundary_C7 (fun _ => "d") ⟨1000, 5, [], 5⟩
      (LRUCache.empty String AnalysisResult 1000)
      ⟨true, "hello".toList, false, false, true⟩ true rfl).1 (by decide),
   (analyze_size_boundary_C7 (fun _ => "d") ⟨1000, 5, [], 5⟩
      (LRUCache.empty String AnalysisResult 1000)
      ⟨true, "hello!".toList, false, false, true⟩ true rfl).2 (by decide)⟩

/-- C4 (evaluation of the failing input): for an existing zero-byte file
and `use_cache=true`, the `ValueError` of `mmap.mmap(fileno, 0)` on an
empty file escapes `get_file_hash`'s `except (IOError, mmap.error)`
handler and the `except IOError` at the `analyze_scene` call site alike,
so `analyze_scene` raises it to the caller — while the same file with
`use_cache=false` is analyzed normally.  The claim (and the spec's error
design, which lets only the size-limit error propagate) says no such
exception may escape. -/
theorem analyze_empty_file_raises_C4 :
    (analyze_scene (fun _ => "d") ⟨1000, 100, [], 5⟩
        (LRUCache.empty String AnalysisResult 1000)
        ⟨true, [], false, false, true⟩ true).result
      = Except.error AnalyzeError.emptyMmap
    ∧ (analyze_scene (fun _ => "d") ⟨1000, 100, [], 5⟩
        (LRUCache.empty String AnalysisResult 1000)
        ⟨true, [], false, false, true⟩ false).result
      = Except.ok (some (analyzeText ⟨1000, 100, [], 5⟩ [])) :=
  ⟨rfl, rfl⟩

/-- C5 counterexample: an existing, within-size-limit, readable and
decodable file whose fingerprinting raises `IOError`.  The claim says
`analyze(file, use_cache=true)` returns the freshly computed
AnalysisResult; the code reads and analyzes the file but then recomputes
the fingerprint inside the `try ... except Exception` block at the store
step, the recomputation fails again, and the handler turns the call into
the absence signal. -/
theorem analyze_hashfail_C5_counterexample :
    (analyze_scene (fun _ => "d") ⟨1000, 100, [], 5⟩
        (LRUCache.empty String AnalysisResult 1000)
        ⟨true, "hello world".toList, true, false, true⟩ true).result = Except.ok none
    ∧ (analyze_scene (fun _ => "d") ⟨1000, 100, [], 5⟩
        (LRUCache.empty String AnalysisResult 1000)
        ⟨true, "hello world".toList, true, false, true⟩ true).contentRead = true :=
  ⟨rfl, rfl⟩

/-- C5 (amended): when fingerprinting fails with an I/O error but the
file's content can be read and analyzed, the failure is non-fatal at the
cache-lookup step and `analyze` does proceed to read the file directly
(`contentRead = true`); but the store step recomputes the fingerprint
inside the blanket `except Exception` handler, the recomputation fails
again, and `analyze` returns the absence signal with the cache unchanged,
discarding the freshly computed result. -/
theorem analyze_hashfail_swallowed_C5 (hashFn : List Char → String) (cfg : Config)
    (cache : LRUCache String AnalysisResult) (f : FileInfo)
    (hp : f.present = true) (hsz : f.data.length ≤ cfg.max_file_size)
    (hh : f.hashIoFail = true) (hr : f.readIoFail = false) (hd : f.decodable = true) :
    (analyze_scene hashFn cfg cache f true).result = Except.ok none
    ∧ (analyze_scene hashFn cfg cache f true).contentRead = true
    ∧ (analyze_scene hashFn cfg cache f true).cache = cache := by
  have hhash : get_file_hash hashFn f = HashOutcome.ioError := by
    unfold get_file_hash
    rw [hh]
    rfl
  have hread : read_text f = some f.data := by
    unfold read_text
    rw [hr, hd]
    rfl
  unfold analyze_scene
  rw [hp]
  rw [if_neg (by decide : ¬ ((!true) = true))]
  rw [if_neg (Nat.not_lt.mpr hsz)]
  rw [if_pos rfl, hhash]
  unfold proceedRead
  rw [hread]
  simp only [hhash]
  exact ⟨rfl, rfl, rfl⟩

theorem analyze_hashfail_swallowed_C5_witness :
    (analyze_scene (fun _ => "d") ⟨1000, 100, [], 5⟩
        (LRUCache.empty String AnalysisResult 1000)
        ⟨true, "abc".toList, true, false, true⟩ true).result = Except.ok none
    ∧ (analyze_scene (fun _ => "d") ⟨1000, 100, [], 5⟩
        (LRUCache.empty String AnalysisResult 1000)
        ⟨true, "abc".toList, true, false, true⟩ true).contentRead = true
    ∧ (analyze_scene (fun _ => "d") ⟨1000, 100, [], 5⟩
        (LRUCache.empty String AnalysisResult 1000)
        ⟨true, "abc".toList, true, false, true⟩ true).cache
      = LRUCache.empty String AnalysisResult 1000 :=
  analyze_hashfail_swallowed_C5 (fun _ => "d") ⟨1000, 100, [], 5⟩
    (LRUCache.empty String AnalysisResult 1000)
    ⟨true, "abc".toList, true, false, true⟩ rfl (by decide) rfl rfl rfl

theorem lookupKey_after_move {K V : Type} [DecidableEq K] (k : K) (v : V)
    (l : List (K × V)) : lookupKey k (eraseKey k l ++ [(k, v)]) = some v := by
  rw [lookupKey_append, lookupKey_eraseKey_self]
  simp [lookupKey]

theorem lookupKey_put_self {K V : Type} [DecidableEq K] (c : LRUCache K V) (k : K) (v : V)
    (hcap : 1 ≤ c.capacity) : lookupKey k (c.put k v).entries = some v := by
  unfold LRUCache.put
  by_cases hcond : c.capacity < (eraseKey k c.entries ++ [(k, v)]).length
  · rw [if_pos hcond]
    show lookupKey k ((eraseKey k c.entries ++ [(k, v)]).drop 1) = some v
    have hlen : 1 ≤ (eraseKey k c.entries).length := by
      simp only [List.length_append, List.length_cons, List.length_nil] at hcond
      omega
    rw [List.drop_append_of_le_length (by omega)]
    rw [lookupKey_append]
    have hnone : lookupKey k ((eraseKey k c.entries).drop 1) = none := by
      rw [lookupKey_eq_none_iff_not_mem]
      intro hmem
      have hsub : List.Sublist (((eraseKey k c.entries).drop 1).map Prod.fst)
          ((eraseKey k c.entries).map Prod.fst) := (List.drop_sublist _ _).map _
      have hfull := lookupKey_eraseKey_self (V := V) k c.entries
      rw [lookupKey_eq_none_iff_not_mem] at hfull
      exact hfull (hsub.mem hmem)
    rw [hnone]
    simp [lookupKey]
  · rw [if_neg hcond]
    show lookupKey k (eraseKey k c.entries ++ [(k, v)]) = some v
    exact lookupKey_after_move k v c.entries

/-- One `analyze_scene` call with `use_cache=true` on a healthy file,
expressed by its cache-lookup outcome: a hit returns the cached value
without reading the file; a miss reads, analyzes and stores. -/
theorem analyze_scene_cached_step (hashFn : List Char → String) (cfg : Config)
    (f : FileInfo) (hp : f.present = true) (hsz : f.data.length ≤ cfg.max_file_size)
    (hh : f.hashIoFail = false) (hne : f.data.length ≠ 0)
    (hr : f.readIoFail = false) (hd : f.decodable = true)
    (c : LRUCache String AnalysisResult) :
    analyze_scene hashFn cfg c f true =
      match lookupKey (hashFn f.data) c.entries with
      | some v => ⟨Except.ok (some v),
          ⟨c.capacity, eraseKey (hashFn f.data) c.entries ++ [(hashFn f.data, v)]⟩, false⟩
      | none => ⟨Except.ok (some (analyzeText cfg f.data)),
          c.put (hashFn f.data) (analyzeText cfg f.data), true⟩ := by
  have hhash : get_file_hash hashFn f = HashOutcome.ok (hashFn f.data) := by
    unfold get_file_hash
    rw [hh]
    simp [hne]
  have hread : read_text f = some f.data := by
    unfold read_text
    rw [hr, hd]
    rfl
  unfold analyze_scene
  rw [hp]
  rw [if_neg (by decide : ¬ ((!true) = true))]
  rw [if_neg (Nat.not_lt.mpr hsz)]
  rw [if_pos rfl, hhash]
  cases hlook : lookupKey (hashFn f.data) c.entries with
  | some v =>
      have hget : c.get (hashFn f.data)
          = (some v, ⟨c.capacity,
              eraseKey (hashFn f.data) c.entries ++ [(hashFn f.data, v)]⟩) := by
        unfold LRUCache.get
        rw [hlook]
      simp only [hget]
  | none =>
      have hget : c.get (hashFn f.data) = (none, c) := by
        unfold LRUCache.get
        rw [hlook]
      simp only [hget]
      unfold proceedRead
      rw [hread]
      simp only [hhash, if_pos trivial]

/-- C1: on an existing, unchanged, within-size-limit (and hashable,
readable, decodable) file and a cache of capacity ≥ 1, two consecutive
`analyze(file, use_cache=true)` calls return the same AnalysisResult, and
the second call performs no file content read (only the fingerprint
computation and a cache lookup). -/
theorem analyze_cached_idempotent_C1 (hashFn : List Char → String) (cfg : Config)
    (cache : LRUCache String AnalysisResult) (f : FileInfo)
    (hp : f.present = true) (hsz : f.data.length ≤ cfg.max_file_size)
    (hh : f.hashIoFail = false) (hne : f.data.length ≠ 0)
    (hr : f.readIoFail = false) (hd : f.decodable = true)
    (hcap : 1 ≤ cache.capacity) :
    ∃ r, (analyze_scene hashFn cfg cache f true).result = Except.ok (some r)
      ∧ (analyze_scene hashFn cfg (analyze_scene hashFn cfg cache f true).cache
          f true).result = Except.ok (some r)
      ∧ (analyze_scene hashFn cfg (analyze_scene hashFn cfg cache f true).cache
          f true).contentRead = false := by
  have step := analyze_scene_cached_step hashFn cfg f hp hsz hh hne hr hd
  cases hlook : lookupKey (hashFn f.data) cache.entries with
  | some v =>
      refine ⟨v, ?_, ?_, ?_⟩ <;>
        rw [step cache, hlook] <;>
        simp only [] <;>
        rw [step _, lookupKey_after_move]
  | none =>
      refine ⟨analyzeText cfg f.data, ?_, ?_, ?_⟩ <;>
        rw [step cache, hlook] <;>
        simp only [] <;>
        rw [step _, lookupKey_put_self _ _ _ hcap]

theorem analyze_cached_idempotent_C1_witness :
    ∃ r, (analyze_scene (fun _ => "k") ⟨1000, 100, [], 5⟩
            (LRUCache.empty String AnalysisResult 2)
            ⟨true, "hi there".toList, false, false, true⟩ true).result
          = Except.ok (some r)
      ∧ (analyze_scene (fun _ => "k") ⟨1000, 100, [], 5⟩
            (analyze_scene (fun _ => "k") ⟨1000, 100, [], 5⟩
              (LRUCache.empty String AnalysisResult 2)
              ⟨true, "hi there".toList, false, false, true⟩ true).cache
            ⟨true, "hi there".toList, false, false, true⟩ true).result
          = Except.ok (some r)
      ∧ (analyze_scene (fun _ => "k") ⟨1000, 100, [], 5⟩
            (analyze_scene (fun _ => "k") ⟨1000, 100, [], 5⟩
              (LRUCache.empty String AnalysisResult 2)
              ⟨true, "hi there".toList, false, false, true⟩ true).cache
            ⟨true, "hi there".toList, false, false, true⟩ true).contentRead
          = false :=
  analyze_cached_idempotent_C1 (fun _ => "k") ⟨1000, 100, [], 5⟩
    (LRUCache.empty String AnalysisResult 2)
    ⟨true, "hi there".toList, false, false, true⟩
    rfl (by decide) rfl (by decide) rfl rfl (by decide)

/-! ### C8: TODO extraction -/

/-- The claim's reading of TODO extraction: find the marker, skip the
whole run of separator characters after it, capture the remainder of the
line, trim it, and discard empty captures. -/
def claimTodoOfLine (line : List Char) : Option (List Char) :=
  match (List.range line.length).find? (fun i => todoAt line i) with
  | none => none
  | some i =>
      if (pyStrip ((line.drop (i + 4)).dropWhile isSepChar)).isEmpty then none
      else some (pyStrip ((line.drop (i + 4)).dropWhile isSepChar))

/-- TODO extraction as the claim describes it. -/
def claimTodos (cs : List Char) : List (List Char) :=
  (splitlines cs).filterMap claimTodoOfLine

/-- C8 counterexample: on the line `"TODO:"` the claim's description
captures the empty remainder after the separator run and so discards the
line, but the code's regex backtracks over the greedy `[:\-\s]*` and
captures the `":"` itself, producing one entry. -/
theorem extract_todos_C8_counterexample :
    extract_todos "TODO:".toList = [":".toList]
    ∧ claimTodos "TODO:".toList = [] := by
  constructor <;> decide

/-- What the regex actually captures on one line: at the first position
where the case-insensitive marker is followed by at least one character,
the capture begins at the first non-separator character after the marker
when one exists, and otherwise (all characters after the marker are
separators) is just the line's final character; the capture is trimmed
and dropped when it trims to empty. -/
def amendedTodoOfLine (line : List Char) : Option (List Char) :=
  match findTodoMatch line with
  | none => none
  | some i =>
      let rest := line.drop (i + 4)
      let after := rest.dropWhile isSepChar
      let cap := if after.isEmpty then rest.drop (rest.length - 1) else after
      if (pyStrip cap).isEmpty then none else some (pyStrip cap)

theorem dropWhile_eq_drop_length_takeWhile {α : Type} (p : α → Bool) (l : List α) :
    l.dropWhile p = l.drop (l.takeWhile p).length := by
  induction l with
  | nil => rfl
  | cons x xs ih =>
      by_cases h : p x = true <;>
        simp [List.takeWhile_cons, List.dropWhile_cons, h, ih]

theorem length_takeWhile_le {α : Type} (p : α → Bool) (l : List α) :
    (l.takeWhile p).length ≤ l.length := by
  have h := congrArg List.length (List.takeWhile_append_dropWhile (p := p) (l := l))
  simp only [List.length_append] at h
  omega

theorem tryCapture_eq_drop_min (rest : List Char) (hne : rest ≠ []) :
    ∀ j, j ≤ rest.length →
      tryCapture rest j = some (rest.drop (min j (rest.length - 1))) := by
  have hlen : 1 ≤ rest.length := List.length_pos.mpr hne
  intro j
  induction j with
  | zero =>
      intro _
      unfold tryCapture
      rw [if_pos hlen]
      simp
  | succ j ih =>
      intro hj
      unfold tryCapture
      by_cases hcond : 1 ≤ rest.length - (j + 1)
      · rw [if_pos hcond]
        have : min (j + 1) (rest.length - 1) = j + 1 := by omega
        rw [this]
      · rw [if_neg hcond]
        rw [ih (by omega)]
        have h1 : min j (rest.length - 1) = rest.length - 1 := by omega
        have h2 : min (j + 1) (rest.length - 1) = rest.length - 1 := by omega
        rw [h1, h2]

theorem todoTaskOfLine_eq_amended (line : List Char) :
    todoTaskOfLine line = amendedTodoOfLine line := by
  unfold todoTaskOfLine amendedTodoOfLine
  cases hfind : findTodoMatch line with
  | none => rfl
  | some i =>
      have hpred := List.find?_some hfind
      have hi : i + 4 < line.length := by
        simp only [Bool.and_eq_true, decide_eq_true_eq] at hpred
        exact hpred.2
      have hne : line.drop (i + 4) ≠ [] := by
        intro h
        have := congrArg List.length h
        simp only [List.length_drop, List.length_nil] at this
        omega
      have hrlen : 1 ≤ (line.drop (i + 4)).length := List.length_pos.mpr hne
      have hk := length_takeWhile_le isSepChar (line.drop (i + 4))
      by_cases hfull : ((line.drop (i + 4)).takeWhile isSepChar).length
          = (line.drop (i + 4)).length
      · have hmin : min ((line.drop (i + 4)).takeWhile isSepChar).length
            ((line.drop (i + 4)).length - 1) = (line.drop (i + 4)).length - 1 := by
          omega
        have hempty : (line.drop (i + 4)).dropWhile isSepChar = [] := by
          rw [dropWhile_eq_drop_length_takeWhile, hfull]
          exact List.drop_length _
        simp only [tryCapture_eq_drop_min _ hne _ hk, hmin, hempty,
          List.isEmpty_nil, if_true]
      · have hmin : min ((line.drop (i + 4)).takeWhile isSepChar).length
            ((line.drop (i + 4)).length - 1)
            = ((line.drop (i + 4)).takeWhile isSepChar).length := by omega
        have hnonempty : (line.drop (i + 4)).dropWhile isSepChar ≠ [] := by
          rw [dropWhile_eq_drop_length_takeWhile]
          intro h
          have hlen2 := congrArg List.length h
          rw [List.length_drop] at hlen2
          simp only [List.length_nil] at hlen2
          omega
        have hfalse : ((line.drop (i + 4)).dropWhile isSepChar).isEmpty = false := by
          cases h : (line.drop (i + 4)).dropWhile isSepChar with
          | nil => exact absurd h hnonempty
          | cons a t => rfl
        simp only [tryCapture_eq_drop_min _ hne _ hk, hmin,
          ← dropWhile_eq_drop_length_takeWhile, hfalse, Bool.false_eq_true, if_false]

/-- C8 (amended): for every text, the extracted TODO entries are, in
file-line order, the per-line captures of the backtracking regex
`TODO[:\-\s]*(.+)`: at the first position where the case-insensitive
marker `TODO` is followed by at least one character, the capture starts
at the first non-separator character after the marker when one exists and
otherwise is the line's final (separator) character; captures are trimmed
of surrounding whitespace and discarded when empty.  The claim's three
example lines yield exactly `"Fix this"`, `"Review"`, `"edge case"`; a
bare `"TODO"` yields no entry; a line `"TODO:"` yields `":"`. -/
theorem extract_todos_amended_C8 :
    (∀ cs : List Char, extract_todos cs = (splitlines cs).filterMap amendedTodoOfLine)
    ∧ extract_todos ("TODO: Fix this\nTODO - Review\ntodo   edge case".toList)
        = ["Fix this".toList, "Review".toList, "edge case".toList]
    ∧ extract_todos "TODO".toList = []
    ∧ extract_todos "TODO:".toList = [":".toList] := by
  refine ⟨?_, by decide, by decide, by decide⟩
  intro cs
  unfold extract_todos
  rw [funext todoTaskOfLine_eq_amended]

/-! ### C9: word frequency and top words -/

/-- Occurrence count of `w` in a list. -/
def countK {K : Type} [DecidableEq K] (w : K) (l : List K) : Nat :=
  (l.filter (fun x => decide (x = w))).length

theorem countK_cons {K : Type} [DecidableEq K] (w t : K) (ts : List K) :
    countK w (t :: ts) = (if t = w then 1 else 0) + countK w ts := by
  by_cases h : t = w <;> simp [countK, List.filter_cons, h] <;> omega

theorem countK_filter {K : Type} [DecidableEq K] (w : K) (p : K → Bool) (l : List K) :
    countK w (l.filter p) = if p w = true then countK w l else 0 := by
  induction l with
  | nil => by_cases h : p w = true <;> simp [countK, h]
  | cons t ts ih =>
      by_cases ht : p t = true
      · rw [List.filter_cons_of_pos ht, countK_cons, countK_cons, ih]
        by_cases hw : t = w
        · subst hw
          simp [ht]
        · by_cases hpw : p w = true <;> simp [hw, hpw]
      · rw [List.filter_cons_of_neg ht, countK_cons, ih]
        by_cases hw : t = w
        · subst hw
          simp [ht]
        · by_cases hpw : p w = true <;> simp [hw, hpw]

theorem lookupKey_counterAdd {K : Type} [DecidableEq K] (acc : List (K × Nat)) (t w : K) :
    lookupKey w (counterAdd acc t) =
      if w = t then
        match lookupKey w acc with
        | some m => some (m + 1)
        | none => some 1
      else lookupKey w acc := by
  unfold counterAdd
  by_cases hm : (lookupKey t acc).isSome = true
  · rw [if_pos hm]
    by_cases hw : w = t
    · subst hw
      rw [if_pos rfl]
      induction acc with
      | nil => simp [lookupKey] at hm
      | cons p ps ih =>
          by_cases hp : p.1 = w
          · simp [lookupKey, hp]
          · simp only [lookupKey, hp, if_false] at hm
            simp [lookupKey, hp, ih hm]
    · rw [if_neg hw]
      clear hm
      induction acc with
      | nil => rfl
      | cons p ps ih =>
          by_cases hp : p.1 = w
          · have hpt : ¬ p.1 = t := fun h => hw ((hp ▸ h : w = t))
            simp [lookupKey, hp, hpt, hw]
          · by_cases hpt : p.1 = t
            · simp [lookupKey, hp, hpt, ih, hw, Ne.symm hw]
            · simp [lookupKey, hp, hpt, ih]
  · rw [if_neg hm]
    rw [lookupKey_append]
    by_cases hw : w = t
    · subst hw
      cases hl : lookupKey w acc with
      | none => simp [lookupKey]
      | some m => simp [hl] at hm
    · rw [if_neg hw]
      cases hl : lookupKey w acc with
      | none => simp [lookupKey, Ne.symm hw]
      | some m => rfl

theorem lookupKey_foldl_counterAdd {K : Type} [DecidableEq K] (ts : List K)
    (acc : List (K × Nat)) (w : K) :
    lookupKey w (ts.foldl counterAdd acc) =
      match lookupKey w acc with
      | some m => some (m + countK w ts)
      | none => if w ∈ ts then some (countK w ts) else none := by
  induction ts generalizing acc with
  | nil =>
      cases h : lookupKey w acc <;> simp [countK, h]
  | cons t ts ih =>
      have hstep : ts.foldl counterAdd (counterAdd acc t)
          = (t :: ts).foldl counterAdd acc := rfl
      rw [← hstep, ih (counterAdd acc t), lookupKey_counterAdd]
      by_cases hw : w = t
      · subst hw
        rw [if_pos rfl, countK_cons, if_pos rfl]
        cases h : lookupKey w acc with
        | some m => simp [h, Nat.add_assoc]
        | none => simp [h, List.mem_cons]
      · rw [if_neg hw, countK_cons, if_neg (fun h : t = w => hw h.symm)]
        cases h : lookupKey w acc with
        | some m => simp [h]
        | none => simp [h, List.mem_cons, hw]

/-- The distinct elements of a list in order of first occurrence. -/
def firstOccur {K : Type} [DecidableEq K] : List K → List K
  | [] => []
  | x :: xs => x :: firstOccur (xs.filter (fun y => decide (y ≠ x)))
termination_by l => l.length
decreasing_by
  simp only [List.length_cons]
  exact Nat.lt_succ_of_le (List.length_filter_le _ _)

theorem firstOccur_nil {K : Type} [DecidableEq K] : firstOccur ([] : List K) = [] := by
  rw [firstOccur]

theorem firstOccur_cons {K : Type} [DecidableEq K] (x : K) (xs : List K) :
    firstOccur (x :: xs) = x :: firstOccur (xs.filter (fun y => decide (y ≠ x))) := by
  rw [firstOccur]

theorem keys_counterAdd {K : Type} [DecidableEq K] (acc : List (K × Nat)) (t : K) :
    (counterAdd acc t).map Prod.fst =
      if t ∈ acc.map Prod.fst then acc.map Prod.fst
      else acc.map Prod.fst ++ [t] := by
  unfold counterAdd
  by_cases hm : (lookupKey t acc).isSome = true
  · rw [if_pos hm, if_pos ((lookupKey_isSome_iff_mem t acc).mp hm)]
    rw [List.map_map]
    apply List.map_congr_left
    intro p _
    by_cases hp : p.1 = t <;> simp [hp]
  · have hnm : t ∉ acc.map Prod.fst := by
      intro h
      exact hm ((lookupKey_isSome_iff_mem t acc).mpr h)
    rw [if_neg hm, if_neg hnm]
    simp

theorem keys_foldl_counterAdd {K : Type} [DecidableEq K] (ts : List K)
    (acc : List (K × Nat)) :
    (ts.foldl counterAdd acc).map Prod.fst =
      acc.map Prod.fst
        ++ firstOccur (ts.filter (fun y => decide (y ∉ acc.map Prod.fst))) := by
  induction ts generalizing acc with
  | nil => simp [firstOccur_nil]
  | cons t ts ih =>
      have hstep : ts.foldl counterAdd (counterAdd acc t)
          = (t :: ts).foldl counterAdd acc := rfl
      rw [← hstep, ih (counterAdd acc t), keys_counterAdd]
      by_cases hmem : t ∈ acc.map Prod.fst
      · rw [if_pos hmem, List.filter_cons_of_neg (by simp [hmem])]
      · rw [if_neg hmem, List.filter_cons_of_pos (by simp [hmem])]
        rw [List.append_assoc, firstOccur_cons]
        have hfeq : ts.filter (fun y => decide (y ∉ acc.map Prod.fst ++ [t]))
            = (ts.filter (fun y => decide (y ∉ acc.map Prod.fst))).filter
                (fun y => decide (y ≠ t)) := by
          rw [List.filter_filter]
          apply List.filter_congr
          intro x _
          by_cases h1 : x = t <;> by_cases h2 : x ∈ acc.map Prod.fst <;>
            simp [h1, h2]
        rw [List.singleton_append, hfeq]

theorem nodup_keys_foldl_counterAdd {K : Type} [DecidableEq K] (ts : List K)
    (acc : List (K × Nat)) (h : (acc.map Prod.fst).Nodup) :
    ((ts.foldl counterAdd acc).map Prod.fst).Nodup := by
  induction ts generalizing acc with
  | nil => exact h
  | cons t ts ih =>
      have hstep : (t :: ts).foldl counterAdd acc
          = ts.foldl counterAdd (counterAdd acc t) := rfl
      rw [hstep]
      apply ih
      rw [keys_counterAdd]
      by_cases hmem : t ∈ acc.map Prod.fst
      · rw [if_pos hmem]
        exact h
      · rw [if_neg hmem]
        simp [List.nodup_append, h, hmem]

theorem lookupKey_of_mem_nodup {K V : Type} [DecidableEq K] {l : List (K × V)}
    {p : K × V} (hnd : (l.map Prod.fst).Nodup) (hmem : p ∈ l) :
    lookupKey p.1 l = some p.2 := by
  induction l with
  | nil => cases hmem
  | cons q qs ih =>
      rw [List.map_cons, List.nodup_cons] at hnd
      cases List.mem_cons.mp hmem with
      | inl heq =>
          subst heq
          simp [lookupKey]
      | inr hmem' =>
          have hq : ¬ q.1 = p.1 := by
            intro h
            exact hnd.1 (h ▸ (List.mem_map.mpr ⟨p, hmem', rfl⟩))
          simp [lookupKey, hq, ih hnd.2 hmem']

theorem mem_pair_unique {K V : Type} [DecidableEq K] {l : List (K × V)} {p q : K × V}
    (hnd : (l.map Prod.fst).Nodup) (hp : p ∈ l) (hq : q ∈ l) (heq : p.1 = q.1) :
    p = q := by
  have h1 := lookupKey_of_mem_nodup hnd hp
  have h2 := lookupKey_of_mem_nodup hnd hq
  rw [heq, h2] at h1
  exact Prod.ext heq (Option.some_injective _ h1.symm)

theorem pair_sublist_take {α : Type} {l : List α} (hnd : l.Nodup) {a b : α} {n : Nat}
    (h : List.Sublist [a, b] l) (hb : b ∈ l.take n) :
    List.Sublist [a, b] (l.take n) := by
  induction l generalizing n with
  | nil => simp at h
  | cons x l ih =>
      rw [List.nodup_cons] at hnd
      cases n with
      | zero => simp at hb
      | succ m =>
          rw [List.take_succ_cons] at hb ⊢
          cases h with
          | cons _ h' =>
              have hbl : b ∈ l := h'.mem (by simp)
              cases List.mem_cons.mp hb with
              | inl hbx => exact absurd (hbx ▸ hbl) hnd.1
              | inr hbm => exact (ih hnd.2 h' hbm).cons x
          | cons₂ _ h' =>
              cases List.mem_cons.mp hb with
              | inl hbx =>
                  have hbl : b ∈ l := h'.mem (by simp)
                  exact absurd (hbx ▸ hbl) hnd.1
              | inr hbm =>
                  exact List.Sublist.cons₂ _ (List.singleton_sublist.mpr hbm)

/-- C9: the frequency table maps exactly the lowercased word tokens of
length ≥ 3 outside the stopword set to their occurrence counts, with keys
in first-encountered order; `top_words` (the keys of
`most_common n`) is descending in frequency, has length `min n (number of
distinct counted tokens)`, every included word is at least as frequent as
every excluded one, and ties are broken by first-encountered order: a
word `u` occurring (as a key) before an equally frequent word `v` that
made it into the top words also makes it in, before `v`. -/
theorem word_frequency_top_words_C9 (text : List Char) (stop : List (List Char))
    (n : Nat) :
    (∀ w c, lookupKey w (get_word_frequency text stop) = some c ↔
        (w ∈ tokenize (lowerChars text)
         ∧ (!decide (w ∈ stop) && decide (3 ≤ w.length)) = true
         ∧ c = countK w (tokenize (lowerChars text))))
    ∧ (get_word_frequency text stop).map Prod.fst
        = firstOccur ((tokenize (lowerChars text)).filter
            (fun w => !decide (w ∈ stop) && decide (3 ≤ w.length)))
    ∧ List.Pairwise
        (fun u v => (lookupKey v (get_word_frequency text stop)).getD 0
          ≤ (lookupKey u (get_word_frequency text stop)).getD 0)
        ((most_common n (get_word_frequency text stop)).map Prod.fst)
    ∧ ((most_common n (get_word_frequency text stop)).map Prod.fst).length
        = min n (get_word_frequency text stop).length
    ∧ (∀ u ∈ (most_common n (get_word_frequency text stop)).map Prod.fst,
        ∀ v ∈ (get_word_frequency text stop).map Prod.fst,
          v ∉ (most_common n (get_word_frequency text stop)).map Prod.fst →
          (lookupKey v (get_word_frequency text stop)).getD 0
            ≤ (lookupKey u (get_word_frequency text stop)).getD 0)
    ∧ (∀ u v, (lookupKey u (get_word_frequency text stop)).getD 0
          = (lookupKey v (get_word_frequency text stop)).getD 0 →
        List.Sublist [u, v] ((get_word_frequency text stop).map Prod.fst) →
        v ∈ (most_common n (get_word_frequency text stop)).map Prod.fst →
        List.Sublist [u, v]
          ((most_common n (get_word_frequency text stop)).map Prod.fst)) := by
  have hfreq_eq : get_word_frequency text stop
      = ((tokenize (lowerChars text)).filter
          (fun w => !decide (w ∈ stop) && decide (3 ≤ w.length))).foldl counterAdd [] :=
    rfl
  have hnd : ((get_word_frequency text stop).map Prod.fst).Nodup := by
    rw [hfreq_eq]
    exact nodup_keys_foldl_counterAdd _ [] (by simp)
  have hlook : ∀ w, lookupKey w (get_word_frequency text stop)
      = if w ∈ (tokenize (lowerChars text)).filter
            (fun w => !decide (w ∈ stop) && decide (3 ≤ w.length))
        then some (countK w ((tokenize (lowerChars text)).filter
            (fun w => !decide (w ∈ stop) && decide (3 ≤ w.length))))
        else none := by
    intro w
    rw [hfreq_eq, lookupKey_foldl_counterAdd]
    simp only [lookupKey]
    split <;> rfl
  have htrans : ∀ a b c : List Char × Nat,
      cntGe a b = true → cntGe b c = true → cntGe a c = true := by
    intro a b c
    simp only [cntGe, decide_eq_true_eq]
    omega
  have htotal : ∀ a b : List Char × Nat, (cntGe a b || cntGe b a) = true := by
    intro a b
    simp only [cntGe, Bool.or_eq_true, decide_eq_true_eq]
    omega
  have hsorted := List.sorted_mergeSort htrans htotal (get_word_frequency text stop)
  have hperm := List.mergeSort_perm (get_word_frequency text stop) cntGe
  have hcnt : ∀ p : List Char × Nat, p ∈ (get_word_frequency text stop).mergeSort cntGe →
      (lookupKey p.1 (get_word_frequency text stop)).getD 0 = p.2 := by
    intro p hp
    rw [lookupKey_of_mem_nodup hnd (hperm.mem_iff.mp hp)]
    rfl
  have htake : List.Sublist
      (((get_word_frequency text stop).mergeSort cntGe).take n)
      ((get_word_frequency text stop).mergeSort cntGe) := List.take_sublist n _
  refine ⟨?_, ?_, ?_, ?_, ?_, ?_⟩
  · -- (a) frequency counts
    intro w c
    rw [hlook w]
    constructor
    · intro h
      by_cases hmem : w ∈ (tokenize (lowerChars text)).filter
          (fun w => !decide (w ∈ stop) && decide (3 ≤ w.length))
      · rw [if_pos hmem] at h
        have hc := Option.some_injective _ h
        obtain ⟨hw, hP⟩ := List.mem_filter.mp hmem
        refine ⟨hw, hP, ?_⟩
        rw [← hc, countK_filter, if_pos hP]
      · rw [if_neg hmem] at h
        cases h
    · rintro ⟨hw, hP, hc⟩
      rw [if_pos (List.mem_filter.mpr ⟨hw, hP⟩), countK_filter, if_pos hP, hc]
  · -- (f) keys in first-occurrence order
    rw [hfreq_eq, keys_foldl_counterAdd]
    simp only [List.map_nil, List.nil_append]
    congr 1
    rw [List.filter_eq_self]
    intro a _
    simp
  · -- (b) descending counts
    unfold most_common
    rw [List.pairwise_map]
    refine List.Pairwise.imp_of_mem ?_ ((hsorted).sublist htake)
    intro p q hp hq hle
    rw [hcnt p (htake.mem hp), hcnt q (htake.mem hq)]
    simpa [cntGe] using hle
  · -- (c) length
    simp [most_common, List.length_take, List.length_mergeSort]
  · -- (d) most frequent
    intro u hu v hv hnv
    obtain ⟨p, hp, hpu⟩ := List.mem_map.mp hu
    obtain ⟨q, hq, hqv⟩ := List.mem_map.mp hv
    have hq_sorted : q ∈ (get_word_frequency text stop).mergeSort cntGe :=
      hperm.mem_iff.mpr hq
    have hq_cases : q ∈ ((get_word_frequency text stop).mergeSort cntGe).take n
        ∨ q ∈ ((get_word_frequency text stop).mergeSort cntGe).drop n := by
      rw [← List.mem_append, List.take_append_drop]
      exact hq_sorted
    cases hq_cases with
    | inl hq_take =>
        exact absurd (List.mem_map.mpr ⟨q, hq_take, hqv⟩) hnv
    | inr hq_drop =>
        have hpw : List.Pairwise (fun a b => cntGe a b = true)
            (((get_word_frequency text stop).mergeSort cntGe).take n
              ++ ((get_word_frequency text stop).mergeSort cntGe).drop n) := by
          rw [List.take_append_drop]
          exact hsorted
        have hle := (List.pairwise_append.mp hpw).2.2 p hp q hq_drop
        rw [← hpu, ← hqv, hcnt p (htake.mem hp), hcnt q hq_sorted]
        simpa [cntGe] using hle
  · -- (e) stable tie-break by first occurrence
    intro u v hcnteq hsub hv
    obtain ⟨l2, hl2sub, hl2eq⟩ := List.sublist_map_iff.mp hsub
    match l2, hl2eq with
    | [pu, pv], hl2eq =>
        simp only [List.map_cons, List.map_nil, List.cons.injEq, and_true] at hl2eq
        obtain ⟨hpu, hpv⟩ := hl2eq
        have hpu_mem : pu ∈ get_word_frequency text stop := hl2sub.mem (by simp)
        have hpv_mem : pv ∈ get_word_frequency text stop := hl2sub.mem (by simp)
        have hcu : (lookupKey u (get_word_frequency text stop)).getD 0 = pu.2 := by
          rw [hpu, lookupKey_of_mem_nodup hnd hpu_mem]
          rfl
        have hcv : (lookupKey v (get_word_frequency text stop)).getD 0 = pv.2 := by
          rw [hpv, lookupKey_of_mem_nodup hnd hpv_mem]
          rfl
        have hle : cntGe pu pv = true := by
          simp only [cntGe, decide_eq_true_eq]
          omega
        have hpair := List.pair_sublist_mergeSort htrans htotal hle hl2sub
        have hnd_keys_sorted :
            (((get_word_frequency text stop).mergeSort cntGe).map Prod.fst).Nodup :=
          ((hperm.map Prod.fst).nodup_iff).mpr hnd
        have hnd_sorted : ((get_word_frequency text stop).mergeSort cntGe).Nodup :=
          hnd_keys_sorted.of_map
        obtain ⟨q, hq_take, hqv⟩ := List.mem_map.mp hv
        have hq_sorted : q ∈ (get_word_frequency text stop).mergeSort cntGe :=
          htake.mem hq_take
        have hpv_sorted : pv ∈ (get_word_frequency text stop).mergeSort cntGe :=
          hpair.mem (by simp)
        have hqpv : q = pv :=
          mem_pair_unique hnd_keys_sorted hq_sorted hpv_sorted (by rw [hqv, hpv])
        have hpv_take : pv ∈ ((get_word_frequency text stop).mergeSort cntGe).take n :=
          hqpv ▸ hq_take
        have hfinal := pair_sublist_take hnd_sorted hpair hpv_take
        have := hfinal.map Prod.fst
        simpa [most_common, hpu, hpv] using this

theorem word_frequency_top_words_C9_witness :
    lookupKey "fox".toList (get_word_frequency "the quick and the fox".toList
      ["the".toList, "and".toList]) = some 1 :=
  ((word_frequency_top_words_C9 "the quick and the fox".toList
      ["the".toList, "and".toList] 5).1 "fox".toList 1).mpr
    ⟨by decide, by decide, by decide⟩
